import Mathlib

/-!
Verification of the Near Discord bot's core logic (`bot.py`, `nears_brain.py`):
code-fence-aware message chunking, conversation history bookkeeping, quiz-answer
grading, and leaderboard arithmetic.

Python strings are modeled as `List Char`; machine-level details that cannot
affect the verified properties (the Discord transport, the OpenAI network call,
the file system) are modeled as explicit parameters.  Only the `\n` line
terminator is modeled for `str.splitlines` (the source never produces the other
Unicode terminators), and `str.strip` / `str.lower` are modeled on their ASCII
behavior.
-/

namespace NearBot

/-- ASCII whitespace recognized by Python `str.strip()` / `str.split()`. -/
def pyIsSpace (c : Char) : Bool :=
  c = ' ' || c = '\t' || c = '\n' || c = '\r' || c = '\x0b' || c = '\x0c'

/-- Python `str.strip()`: drop leading and trailing whitespace. -/
def pyStrip (l : List Char) : List Char :=
  ((l.dropWhile pyIsSpace).reverse.dropWhile pyIsSpace).reverse

/-- Python `str.rstrip()`: drop trailing whitespace. -/
def pyRstrip (l : List Char) : List Char :=
  (l.reverse.dropWhile pyIsSpace).reverse

/-- Python `str.rstrip("\n")`: drop trailing newlines only. -/
def rstripNl (l : List Char) : List Char :=
  (l.reverse.dropWhile (· = '\n')).reverse

/-- Helper for `linesOf`; `acc` is the reversed current line. -/
def linesAux : List Char → List Char → List (List Char)
  | [], acc => if acc = [] then [] else [acc.reverse]
  | c :: cs, acc =>
    if c = '\n' then acc.reverse :: linesAux cs [] else linesAux cs (c :: acc)

/-- Python `str.splitlines()` restricted to the `\n` terminator. -/
def linesOf (s : List Char) : List (List Char) :=
  linesAux s []

/-- Helper for `pySplitWords`; `acc` is the reversed current word. -/
def splitWsAux : List Char → List Char → List (List Char)
  | [], acc => if acc = [] then [] else [acc.reverse]
  | c :: cs, acc =>
    if pyIsSpace c then
      if acc = [] then splitWsAux cs [] else acc.reverse :: splitWsAux cs []
    else splitWsAux cs (c :: acc)

/-- Python `str.split()` with no argument: split on whitespace runs, no empties. -/
def pySplitWords (s : List Char) : List (List Char) :=
  splitWsAux s []

/-- Python `needle in hay`: substring containment. -/
def occurs_in (n : List Char) : List Char → Bool
  | [] => n.isEmpty
  | c :: rest => n.isPrefixOf (c :: rest) || occurs_in n rest

/-- Join lines back, terminating each with a newline. -/
def joinNl : List (List Char) → List Char
  | [] => []
  | l :: ls => l ++ '\n' :: joinNl ls

/-- `s` followed by a final newline unless it already ends in one. -/
def ensureNl (s : List Char) : List Char :=
  if s.getLast? = some '\n' then s else s ++ ['\n']

/-! ## ChunkingEngine: `split_into_messages` (bot.py lines 226-278) -/

/-- Loop state of `split_into_messages`.  The source also tracks `current_len`,
which every assignment keeps equal to `len(current)`, so the embedding uses
`current.length` directly. -/
structure ChunkState where
  parts : List (List Char)
  current : List Char
  in_code : Bool
  current_fence : List Char
  deriving Repr, DecidableEq

/-- The flush block of the `split_into_messages` loop: when adding the next
`line + "\n"` (of length `line_len`) would exceed `max_len` and the chunk is
non-empty, close an open code fence (unless the chunk text already ends with
three backticks), emit the chunk, and re-open the remembered fence marker in
the fresh chunk. -/
def chunk_flush (max_len : Nat) (st : ChunkState) (line_len : Nat) : ChunkState :=
  if max_len < st.current.length + line_len ∧ st.current ≠ [] then
    let cur :=
      if st.in_code ∧ ¬ ("```".toList.isSuffixOf (pyRstrip st.current)) then
        st.current ++ "```".toList ++ ['\n']
      else st.current
    { st with
      parts := st.parts ++ [rstripNl cur],
      current := if st.in_code ∧ st.current_fence ≠ [] then st.current_fence ++ ['\n'] else [] }
  else st

/-- The fence-toggle block of the `split_into_messages` loop, evaluated after
the split decision: a line whose stripped form starts with three backticks
opens a fence (remembering the full stripped marker) or closes the open one. -/
def chunk_toggle (st : ChunkState) (line : List Char) : ChunkState :=
  if "```".toList.isPrefixOf (pyStrip line) then
    if ¬ st.in_code then { st with in_code := true, current_fence := pyStrip line }
    else { st with in_code := false, current_fence := [] }
  else st

/-- One iteration of the `for line in lines` loop of `split_into_messages`:
possibly flush the current chunk (closing and re-opening a code fence),
then toggle the fence state, then append the line. -/
def chunk_step (max_len : Nat) (st : ChunkState) (line : List Char) : ChunkState :=
  let line_str := line ++ ['\n']
  let st := chunk_flush max_len st line_str.length
  let st := chunk_toggle st line
  { st with current := st.current ++ line_str }

/-- `split_into_messages(text, max_len=1900)`: split a long reply into
Discord-safe messages, re-opening and closing ``` fences at chunk borders. -/
def split_into_messages (text : List Char) (max_len : Nat := 1900) : List (List Char) :=
  let lines := linesOf text
  let st := lines.foldl (chunk_step max_len) ⟨[], [], false, []⟩
  if pyStrip st.current ≠ [] then
    let current :=
      if st.in_code ∧ ¬ ("```".toList.isSuffixOf (pyRstrip st.current)) then
        st.current ++ "```".toList ++ ['\n']
      else st.current
    st.parts ++ [rstripNl current]
  else st.parts

/-- One line of the fence scan used by `split_into_messages`: a line whose
stripped form starts with three backticks toggles the (in-code flag,
remembered fence marker) pair. -/
def fence_step (st : Bool × List Char) (l : List Char) : Bool × List Char :=
  let stripped := pyStrip l
  if "```".toList.isPrefixOf stripped then
    if ¬ st.1 then (true, stripped) else (false, [])
  else st

/-- The fence state scanner used by `split_into_messages`: fold the
(in-code flag, remembered fence marker) pair over a line list. -/
def fence_state (st : Bool × List Char) (ls : List (List Char)) : Bool × List Char :=
  ls.foldl fence_step st

/-- A segment is fence-balanced when scanning its lines with the same
fence-toggle rule the source uses ends outside a code fence. -/
def fence_balanced (seg : List Char) : Bool :=
  !(fence_state (false, []) (linesOf seg)).1

/-- Length of the longest line of `text` (0 when there are none). -/
def max_line_len (text : List Char) : Nat :=
  ((linesOf text).map List.length).foldl max 0

/-! ## Answer grading: `is_guess_correct` (bot.py lines 459-477) -/

/-- `is_guess_correct(guess, answer)`: keyword-based check.  Lowercase both,
split the answer into words (commas become spaces), and require all
substantial words (length ≥ 3) to appear in the guess; with no substantial
word, fall back to whole-answer substring containment.  An empty answer is
rejected up front. -/
def is_guess_correct (guess answer : String) : Bool :=
  if answer = "" then false
  else
    let g := guess.toList.map Char.toLower
    let a := answer.toList.map Char.toLower
    let words :=
      (pySplitWords (a.map fun c => if c = ',' then ' ' else c)).filter fun w => 3 ≤ w.length
    if words = [] then occurs_in a g
    else words.all fun w => occurs_in w g

/-- The grading rule exactly as the specification words it (for comparison
with `is_guess_correct`): every substantial keyword of the canonical answer
must occur in the lower-cased guess, falling back to whole-answer containment
when no substantial keyword exists — with no special case for an empty
canonical answer. -/
def guess_spec_ok (guess answer : String) : Bool :=
  let g := guess.toList.map Char.toLower
  let a := answer.toList.map Char.toLower
  let words :=
    (pySplitWords (a.map fun c => if c = ',' then ' ' else c)).filter fun w => 3 ≤ w.length
  if words = [] then occurs_in a g
  else words.all fun w => occurs_in w g

/-! ## LeaderboardStore (bot.py lines 12-65, 626-627) -/

/-- One user's persisted counters. -/
structure ScoreEntry where
  xp : Nat
  wins : Nat
  games : Nat
  deriving Repr, DecidableEq

/-- Python `dict.get(k)` on a dict modeled as an association list. -/
def dictGet {α β : Type} [DecidableEq α] : List (α × β) → α → Option β
  | [], _ => none
  | (k', v') :: rest, k => if k' = k then some v' else dictGet rest k

/-- Python `d[k] = v`: replace the entry in place, or append a new one. -/
def dictSet {α β : Type} [DecidableEq α] : List (α × β) → α → β → List (α × β)
  | [], k, v => [(k, v)]
  | (k', v') :: rest, k, v =>
    if k' = k then (k, v) :: rest else (k', v') :: dictSet rest k v

/-- Per-guild board: user-key (stringified id) to score entry. -/
abbrev GuildBoard := List (String × ScoreEntry)

/-- Whole leaderboard file content: guild-key to guild board. -/
abbrev LeaderboardData := List (String × GuildBoard)

/-- Outcome of trying to read the leaderboard file: the file may be missing,
reading or JSON-parsing it may raise, or it yields data.  The file system and
JSON layer are external; only their outcome is modeled. -/
inductive ReadResult where
  | missing
  | failure
  | ok (data : LeaderboardData)

/-- `load_leaderboard()`: a missing file and any read/parse exception both
produce an empty board (`os.path.exists` guard and `try/except: return {}`). -/
def load_leaderboard : ReadResult → LeaderboardData
  | .missing => []
  | .failure => []
  | .ok data => data

/-- Outcome of the underlying file write attempted by `save_leaderboard`. -/
inductive WriteOutcome where
  | success
  | failure (kind : String)

/-- `save_leaderboard(data)`: the write is wrapped in `try/except: pass`,
so the call returns normally whatever the write outcome (`Except.error`
would model a propagated exception; it is never produced). -/
def save_leaderboard (_data : LeaderboardData) : WriteOutcome → Except String Unit
  | .success => Except.ok ()
  | .failure _ => Except.ok ()

/-- The guild key used by the leaderboard functions: `str(guild_id)`, or the
sentinel `"global"` when there is no guild context. -/
def guild_key : Option Int → String
  | some g => toString g
  | none => "global"

/-- The body of the `for user_id, pts in scores.items()` loop of
`update_leaderboard`: add 1 game and 10 XP per point to the user's entry
(all-zero for a first-seen user), plus 1 win and a flat 20 XP for winners. -/
def duel_entry_update (winners : List Int) (gb : GuildBoard) (up : Int × Nat) : GuildBoard :=
  let ukey := toString up.1
  let entry := (dictGet gb ukey).getD ⟨0, 0, 0⟩
  let entry := { entry with games := entry.games + 1, xp := entry.xp + up.2 * 10 }
  let entry :=
    if up.1 ∈ winners then { entry with wins := entry.wins + 1, xp := entry.xp + 20 }
    else entry
  dictSet gb ukey entry

/-- `update_leaderboard(guild_id, scores, winners)`: load the board, apply
`duel_entry_update` for every user in `scores`, and save.  Returns the saved
data and the updated guild board (the source's return value). -/
def update_leaderboard (disk : ReadResult) (guild_id : Option Int)
    (scores : List (Int × Nat)) (winners : List Int) :
    LeaderboardData × GuildBoard :=
  let data := load_leaderboard disk
  let gkey := guild_key guild_id
  let guild_board := (dictGet data gkey).getD []
  let guild_board := scores.foldl (duel_entry_update winners) guild_board
  (dictSet data gkey guild_board, guild_board)

/-- `max(scores.values())` as computed in `run_speedduel` (bot.py line 626);
the source only evaluates it when `scores` is non-empty, where the fold from
0 agrees with Python's `max`. -/
def max_points (scores : List (Int × Nat)) : Nat :=
  (scores.map Prod.snd).foldl max 0

/-- The winner list built in `run_speedduel` (bot.py line 627): every user
whose point total equals the maximum. -/
def speedduel_winners (scores : List (Int × Nat)) : List Int :=
  (scores.filter fun s => s.2 == max_points scores).map Prod.fst

/-! ## ConversationMemory and ReplyOrchestrator (nears_brain.py lines 34-54,
187-245; identical copies live in bot.py lines 125-145, 669-727) -/

/-- One conversation turn as stored in `history_by_channel`. -/
structure Turn where
  role : String
  content : String
  deriving Repr, DecidableEq

/-- The fixed persona system prompt (nears_brain.py lines 60-83). -/
def NEAR_PROMPT : String :=
  "You are modeling the speech and mentality of Near (Nate River) from Death Note. " ++
  "Speak quietly, analytically, and with emotional detachment. " ++
  "Your style: short, precise sentences; calm, neutral tone; avoid exaggeration " ++
  "or strong emotion; explain your reasoning with quiet logic; occasionally use " ++
  "ellipses '...' when reflecting; remain polite but distant; never break character. " ++
  "If the user asks for help or explanation, respond like Near analyzing the situation. " ++
  "Occasionally, in a subtle way, you may describe your small physical actions in " ++
  "third person using brief Markdown italics, for example: " ++
  "'*Near idly stacks a row of dominoes.*' or '*A marble rolls across Near's desk.*'. " ++
  "Keep these short, quiet, and rare, and never make them dramatic or out of character.\n\n" ++
  "You will sometimes see prior channel messages as '[Context] <name> said: ...'. " ++
  "These are background conversation only. Use them if they help your analysis, " ++
  "but you are free to ignore any context that seems irrelevant.\n\n" ++
  "Identity Guide (for grounding, not analysis):\n" ++
  "- Am is 'Am'.\n" ++
  "- Chahid is 'Chahidden'.\n" ++
  "- Jacob is 'Jacob'.\n" ++
  "Use their names exactly as written. Do not invent personalities. " ++
  "This information is only for referring to them accurately when necessary."

/-- `add_message_to_history(channel_id, user_name, text)` acting on one
channel's stored list: append a `[Context]` system turn, then keep only the
last 40 entries. -/
def add_message_to_history (history : List Turn) (user_name text : String) : List Turn :=
  let history := history ++ [⟨"system", "[Context] " ++ user_name ++ " said: " ++ text⟩]
  if 40 < history.length then history.drop (history.length - 40) else history

/-- Token usage reported by the model provider. -/
structure OAIUsage where
  input_tokens : Nat
  output_tokens : Nat

/-- The provider response consumed by `get_near_reply`. -/
structure OAIResponse where
  output_text : String
  usage : Option OAIUsage

/-- Left-pad a numeral string with zeros to `n` digits. -/
def padZeros (n : Nat) (s : String) : String :=
  String.mk (List.replicate (n - s.length) '0') ++ s

/-- The cost footer of `get_near_reply`: input tokens at $1.25/1M, output at
$10.00/1M, shown with five decimals.  The source computes with Float and
formats via `%.5f`; the embedding rounds the exact rational (in units of
10^-8 dollars) half-up, which agrees for all realistic token counts. -/
def cost_footer (input_tokens output_tokens : Nat) : String :=
  let total := input_tokens * 125 + output_tokens * 1000
  let rounded := (total + 500) / 1000
  let dollars := toString (rounded / 100000)
  let frac := padZeros 5 (toString (rounded % 100000))
  let itok := toString input_tokens
  let otok := toString output_tokens
  "\n\n_(approx cost this reply: $" ++ dollars ++ "." ++ frac ++ " — input " ++ itok ++
    " tok, output " ++ otok ++ " tok)_"

/-- The model input built by `get_near_reply`: persona prompt, optional extra
system directives, the (trimmed) history, then the current user turn. -/
def near_reply_input (history : List Turn) (user_name user_text : String)
    (extra_system : Option (List Turn)) : List Turn :=
  let system_messages := Turn.mk "system" NEAR_PROMPT :: extra_system.getD []
  let user_turn : Turn := ⟨"user", user_name ++ ": " ++ user_text⟩
  system_messages ++ history ++ [user_turn]

/-- `get_near_reply` acting on one channel's stored history.  The OpenAI call
is external and is passed in as `llm`; `Except.error kind` models the call
raising an exception whose type name is `kind`.  Returns the reply text and
the new stored history (trimmed to 40 before the assistant turn is appended). -/
def get_near_reply (llm : List Turn → Except String OAIResponse)
    (channel_history : List Turn) (user_name user_text : String)
    (extra_system : Option (List Turn)) : String × List Turn :=
  let history :=
    if 40 < channel_history.length then channel_history.drop (channel_history.length - 40)
    else channel_history
  let reply_text :=
    match llm (near_reply_input history user_name user_text extra_system) with
    | Except.ok response =>
      match response.usage with
      | some usage => response.output_text ++ cost_footer usage.input_tokens usage.output_tokens
      | none => response.output_text
    | Except.error e => "Oops, something went wrong talking to OpenAI: `" ++ e ++ "`"
  (reply_text, history ++ [⟨"assistant", reply_text⟩])

/-- The two operations that append to a channel's history: recording an
ambient context message (`add_message_to_history`) and producing a reply
(`get_near_reply`). -/
inductive HistOp where
  | ambient (user_name text : String)
  | reply (llm : List Turn → Except String OAIResponse) (user_name text : String)
      (extra_system : Option (List Turn))

/-- Apply one history operation to a channel's stored history. -/
def hist_step (h : List Turn) : HistOp → List Turn
  | .ambient u t => add_message_to_history h u t
  | .reply llm u t extra => (get_near_reply llm h u t extra).2

/-- The single turn an operation appends, given the stored history it runs on. -/
def turn_of (h : List Turn) : HistOp → Turn
  | .ambient u t => ⟨"system", "[Context] " ++ u ++ " said: " ++ t⟩
  | .reply llm u t extra => ⟨"assistant", (get_near_reply llm h u t extra).1⟩

/-- Run a sequence of operations from an empty channel, returning the stored
history together with the full log of appended turns. -/
def hist_run (ops : List HistOp) : List Turn × List Turn :=
  ops.foldl (fun p op => (hist_step p.1 op, p.2 ++ [turn_of p.1 op])) ([], [])

/-- The last `n` elements of a list (Python `l[-n:]` for `n ≥ 1`). -/
def rtakeL {α : Type} (n : Nat) (l : List α) : List α :=
  l.drop (l.length - n)

/-- How many turns the stored history can hold right after an operation:
`add_message_to_history` trims after appending (bound 40), `get_near_reply`
trims before appending (bound 41). -/
def op_bound : Option HistOp → Nat
  | none => 0
  | some (.ambient _ _) => 40
  | some (.reply _ _ _ _) => 41

/-! ## Proof-support definitions -/

/-- Combined length of the `line + "\n"` strings a line list contributes. -/
def lines_total (ls : List (List Char)) : Nat :=
  (ls.map fun l => l.length + 1).sum

/-- Invariant maintained by the `split_into_messages` loop: finished parts are
within `max_len + 3` or `2*M + 5` characters (`M` bounding every line length),
the running chunk is within `max_len` or `2*M + 2`, the running chunk is empty
or newline-terminated, and the remembered fence marker is at most `M` long. -/
def chunk_inv (max_len M : Nat) (st : ChunkState) : Prop :=
  (∀ p ∈ st.parts, p.length ≤ max_len + 3 ∨ p.length ≤ 2 * M + 5) ∧
  (st.current.length ≤ max_len ∨ st.current.length ≤ 2 * M + 2) ∧
  (st.current = [] ∨ st.current.getLast? = some '\n') ∧
  st.current_fence.length ≤ M

/-! ## Helper lemmas -/

theorem occurs_in_nil (h : List Char) : occurs_in [] h = true := by
  cases h <;> simp [occurs_in, List.isPrefixOf]

/-! ## Claim C10 -/

/-- Claim C10: for every guess, the empty canonical answer is rejected up
front: `is_guess_correct guess ""` is `false`, even though the substring
fallback used for answers without substantial keywords (`guess_spec_ok`)
would accept every guess on the empty answer. -/
theorem is_guess_correct_empty_answer (g : String) :
    is_guess_correct g "" = false ∧ guess_spec_ok g "" = true := by
  have hempty : ("" : String).toList = [] := rfl
  refine ⟨by simp [is_guess_correct], ?_⟩
  simp [guess_spec_ok, hempty, pySplitWords, splitWsAux, occurs_in_nil]

/-! ## Claim C8 -/

/-- Claim C8: `load_leaderboard` returns an empty board both when the file is
missing and when reading/parsing raises, and `save_leaderboard` returns
normally (never an error) whatever the write outcome. -/
theorem leaderboard_persistence_error_handling :
    load_leaderboard ReadResult.missing = [] ∧
    load_leaderboard ReadResult.failure = [] ∧
    (∀ d, load_leaderboard (ReadResult.ok d) = d) ∧
    (∀ d w, save_leaderboard d w = Except.ok ()) := by
  refine ⟨rfl, rfl, fun d => rfl, fun d w => ?_⟩
  cases w <;> rfl

/-! ## Claim C5 -/

/-- Claim C5 counterexample: the claimed equivalence between
`is_guess_correct` and the spec's grading rule fails at the empty canonical
answer, which the code rejects up front while the spec's fallback accepts. -/
theorem is_guess_correct_claim_false :
    ¬ (∀ g a : String, is_guess_correct g a = guess_spec_ok g a) := by
  intro h
  exact absurd (h "anything" "") (by decide)

/-- Claim C5 (amended): for every non-empty canonical answer,
`is_guess_correct` agrees with the spec's keyword rule (case-insensitive and
keyword-order-insensitive), and the claim's two examples evaluate as stated. -/
theorem is_guess_correct_matches_spec :
    (∀ g a : String, a ≠ "" → is_guess_correct g a = guess_spec_ok g a) ∧
    is_guess_correct "it's a HASH table obviously" "hash table" = true ∧
    is_guess_correct "table" "hash table" = false := by
  refine ⟨fun g a h => ?_, by decide, by decide⟩
  simp [is_guess_correct, guess_spec_ok, h]

/-- Witness for `is_guess_correct_matches_spec` at a concrete guess/answer. -/
theorem is_guess_correct_matches_spec_witness :
    is_guess_correct "it's a HASH table obviously" "hash table" =
      guess_spec_ok "it's a HASH table obviously" "hash table" :=
  is_guess_correct_matches_spec.1 "it's a HASH table obviously" "hash table" (by decide)

/-! ## Claim C7 -/

/-- Claim C7: if the model call raises, `get_near_reply` returns the fixed
fallback string naming the exception kind instead of propagating; and in every
case the stored history it returns is the (trimmed) history with the returned
reply appended as an assistant turn. -/
theorem get_near_reply_error_handling (llm : List Turn → Except String OAIResponse)
    (h : List Turn) (u t : String) (extra : Option (List Turn)) :
    (get_near_reply llm h u t extra).2 =
      (if 40 < h.length then h.drop (h.length - 40) else h) ++
        [⟨"assistant", (get_near_reply llm h u t extra).1⟩] ∧
    (∀ e, llm (near_reply_input
        (if 40 < h.length then h.drop (h.length - 40) else h) u t extra) =
          Except.error e →
      (get_near_reply llm h u t extra).1 =
        "Oops, something went wrong talking to OpenAI: `" ++ e ++ "`") := by
  refine ⟨rfl, fun e he => ?_⟩
  simp only [get_near_reply, he]

/-- Witness for `get_near_reply_error_handling`: a concrete failing call. -/
theorem get_near_reply_error_handling_witness :
    (get_near_reply (fun _ => Except.error "APIConnectionError") [] "Am" "hi" none).1 =
      "Oops, something went wrong talking to OpenAI: `" ++ "APIConnectionError" ++ "`" :=
  (get_near_reply_error_handling (fun _ => Except.error "APIConnectionError")
    [] "Am" "hi" none).2 "APIConnectionError" rfl

/-! ## Claim C1 -/

/-- Claim C1 (code bug): on valid Markdown input and `max_len = 10`,
the first returned segment is `"a\n```"`: it opens a fence and ends without
closing it, so it is not fence-balanced.  The close is skipped because the
chunk text happens to end with three backticks — here the opening fence
itself — contradicting the function's stated purpose of keeping every chunk
valid Markdown. -/
theorem split_into_messages_unbalanced_segment :
    split_into_messages "a\n```\nthis line is long\n```".toList 10 =
      ["a\n```".toList, "```\nthis line is long\n```".toList, "```\n```".toList] ∧
    fence_balanced "a\n```".toList = false := by
  refine ⟨by decide, by decide⟩

/-! ## Claim C3 counterexample -/

/-- Claim C3 counterexample: at `max_len = 10`, the input
`"```\nabcd\nxy"` has no line longer than 10 characters, yet the first
returned segment (`"```\nabcd\n```"`, 12 characters, a closing fence having
been appended) exceeds `max_len`. -/
theorem split_length_claim_false :
    ¬ (∀ p ∈ split_into_messages "```\nabcd\nxy".toList 10,
        p.length ≤ 10 ∨
          ∃ l ∈ linesOf "```\nabcd\nxy".toList, 10 < l.length ∧ occurs_in l p = true) := by
  decide

/-! ## Claim C4 counterexample -/

/-- Claim C4 counterexample: two inputs under the default 1900-character
limit for which the claim fails — the empty input yields zero segments, and
an input ending inside an open fence yields a segment with a closing fence
appended, not the trimmed input. -/
theorem split_short_input_claim_false :
    split_into_messages "".toList 1900 = [] ∧
    split_into_messages "```\nhi".toList 1900 = ["```\nhi\n```".toList] := by
  refine ⟨by decide, by decide⟩

/-! ## Claim C2 counterexample -/

set_option maxRecDepth 4000 in
/-- Claim C2 counterexample: forty ambient appends followed by one
`get_near_reply` leave 41 turns stored, because `get_near_reply` trims to 40
before appending its reply rather than after. -/
theorem history_bound_claim_false :
    ¬ ((hist_run (List.replicate 40 (HistOp.ambient "u" "m") ++
        [HistOp.reply (fun _ => Except.error "E") "u" "m" none])).1.length ≤ 40) := by
  decide

/-! ## Claim C6 -/

theorem dictGet_dictSet_self {α β : Type} [DecidableEq α] (d : List (α × β)) (k : α) (v : β) :
    dictGet (dictSet d k v) k = some v := by
  induction d with
  | nil => simp [dictSet, dictGet]
  | cons hd tl ih =>
    obtain ⟨k', v'⟩ := hd
    by_cases hk : k' = k
    · subst hk
      simp [dictSet, dictGet]
    · simp [dictSet, dictGet, hk, ih]

theorem dictGet_dictSet_ne {α β : Type} [DecidableEq α] (d : List (α × β)) (k k2 : α) (v : β)
    (h : k ≠ k2) : dictGet (dictSet d k v) k2 = dictGet d k2 := by
  induction d with
  | nil => simp [dictSet, dictGet, h]
  | cons hd tl ih =>
    obtain ⟨k', v'⟩ := hd
    by_cases hk : k' = k
    · subst hk
      simp [dictSet, dictGet, h]
    · simp [dictSet, dictGet, hk, ih]

theorem foldl_duel_entry_update_notmem (winners : List Int) (scores : List (Int × Nat))
    (gb : GuildBoard) (k : String) (h : k ∉ scores.map fun s => toString s.1) :
    dictGet (scores.foldl (duel_entry_update winners) gb) k = dictGet gb k := by
  induction scores generalizing gb with
  | nil => rfl
  | cons s rest ih =>
    simp only [List.map_cons, List.mem_cons] at h
    push_neg at h
    rw [List.foldl_cons, ih _ h.2]
    simp only [duel_entry_update]
    exact dictGet_dictSet_ne _ _ _ _ fun he => h.1 he.symm

theorem foldl_duel_entry_update_get (winners : List Int) (scores : List (Int × Nat)) :
    ∀ (gb : GuildBoard) (u : Int) (p : Nat),
      (scores.map fun s => toString s.1).Nodup → (u, p) ∈ scores →
      dictGet (scores.foldl (duel_entry_update winners) gb) (toString u) =
        some ⟨((dictGet gb (toString u)).getD ⟨0, 0, 0⟩).xp + p * 10 +
                (if u ∈ winners then 20 else 0),
              ((dictGet gb (toString u)).getD ⟨0, 0, 0⟩).wins +
                (if u ∈ winners then 1 else 0),
              ((dictGet gb (toString u)).getD ⟨0, 0, 0⟩).games + 1⟩ := by
  induction scores with
  | nil =>
    intro gb u p _ hmem
    cases hmem
  | cons s rest ih =>
    intro gb u p hnodup hmem
    simp only [List.map_cons, List.nodup_cons] at hnodup
    rcases List.mem_cons.mp hmem with heq | hmem'
    · subst heq
      rw [List.foldl_cons, foldl_duel_entry_update_notmem _ _ _ _ hnodup.1]
      by_cases hw : u ∈ winners <;>
        simp [duel_entry_update, dictGet_dictSet_self, hw, Nat.add_assoc]
    · have hne : toString s.1 ≠ toString u := by
        intro he
        exact hnodup.1 (he ▸ List.mem_map_of_mem (fun x => toString x.1) hmem')
      rw [List.foldl_cons, ih _ u p hnodup.2 hmem']
      simp only [duel_entry_update]
      rw [dictGet_dictSet_ne _ _ _ _ hne]

/-- Claim C6: `update_leaderboard` gives every user in `scores` exactly
+1 game, +10 XP per point, and — for users in `winners` — +1 win and a flat
+20 XP, starting from all-zero for first-seen users; and the winners list
built by `run_speedduel` contains every user whose point total equals the
duel's maximum (so ties all receive the win bonus). -/
theorem update_leaderboard_xp_rule (disk : ReadResult) (guild_id : Option Int)
    (scores : List (Int × Nat)) (winners : List Int) (u : Int) (p : Nat)
    (hnodup : (scores.map fun s => toString s.1).Nodup)
    (hmem : (u, p) ∈ scores) :
    dictGet (update_leaderboard disk guild_id scores winners).2 (toString u) =
      (let gb0 := (dictGet (load_leaderboard disk) (guild_key guild_id)).getD []
       let e0 := (dictGet gb0 (toString u)).getD ⟨0, 0, 0⟩
       some ⟨e0.xp + p * 10 + (if u ∈ winners then 20 else 0),
             e0.wins + (if u ∈ winners then 1 else 0),
             e0.games + 1⟩) ∧
    (∀ v q, (v, q) ∈ scores → q = max_points scores → v ∈ speedduel_winners scores) := by
  constructor
  · simpa [update_leaderboard] using
      foldl_duel_entry_update_get winners scores
        ((dictGet (load_leaderboard disk) (guild_key guild_id)).getD []) u p hnodup hmem
  · intro v q hvq hq
    simp only [speedduel_winners, List.mem_map, List.mem_filter]
    exact ⟨(v, q), ⟨hvq, by simp [hq]⟩, rfl⟩

/-- Witness for `update_leaderboard_xp_rule`: a two-way tie at 2 points each;
both users are winners and both receive `2*10 + 20 = 40` XP, 1 win, 1 game
from a zero baseline. -/
theorem update_leaderboard_xp_rule_witness :
    dictGet (update_leaderboard (ReadResult.ok []) (some 1)
        [((5 : Int), (2 : Nat)), ((7 : Int), (2 : Nat))] [(5 : Int), (7 : Int)]).2
        (toString (5 : Int)) =
      (let gb0 := (dictGet (load_leaderboard (ReadResult.ok [])) (guild_key (some 1))).getD []
       let e0 := (dictGet gb0 (toString (5 : Int))).getD ⟨0, 0, 0⟩
       some ⟨e0.xp + 2 * 10 + (if (5 : Int) ∈ [(5 : Int), (7 : Int)] then 20 else 0),
             e0.wins + (if (5 : Int) ∈ [(5 : Int), (7 : Int)] then 1 else 0),
             e0.games + 1⟩) ∧
    (∀ v q, (v, q) ∈ [((5 : Int), (2 : Nat)), ((7 : Int), (2 : Nat))] →
      q = max_points [((5 : Int), (2 : Nat)), ((7 : Int), (2 : Nat))] →
      v ∈ speedduel_winners [((5 : Int), (2 : Nat)), ((7 : Int), (2 : Nat))]) :=
  update_leaderboard_xp_rule (ReadResult.ok []) (some 1)
    [((5 : Int), (2 : Nat)), ((7 : Int), (2 : Nat))] [(5 : Int), (7 : Int)] 5 2
    (by decide) (by decide)

/-! ## Claim C2 -/

theorem length_rtakeL {α : Type} (n : Nat) (l : List α) :
    (rtakeL n l).length = min n l.length := by
  simp only [rtakeL, List.length_drop]
  omega

theorem rtakeL_concat {α : Type} (n : Nat) (l : List α) (a : α) :
    rtakeL (n + 1) (l ++ [a]) = rtakeL n l ++ [a] := by
  unfold rtakeL
  rw [List.length_append]
  have h1 : l.length + [a].length - (n + 1) = l.length - n := by
    simp only [List.length_singleton]
    omega
  rw [h1, List.drop_append_of_le_length (by omega)]

theorem rtakeL_rtakeL {α : Type} (m n : Nat) (l : List α) :
    rtakeL m (rtakeL n l) = rtakeL (min m n) l := by
  unfold rtakeL
  rw [List.drop_drop, List.length_drop]
  congr 1
  omega

theorem op_bound_le (o : Option HistOp) : op_bound o ≤ 41 := by
  rcases o with _ | o
  · simp [op_bound]
  · cases o <;> simp [op_bound]

theorem op_bound_ge (ops : List HistOp) (h : ops ≠ []) : 40 ≤ op_bound ops.getLast? := by
  cases hop : ops.getLast? with
  | none => exact absurd (List.getLast?_eq_none_iff.mp hop) h
  | some o => cases o <;> simp [op_bound]

theorem hist_run_concat (ops : List HistOp) (op : HistOp) :
    hist_run (ops ++ [op]) =
      (hist_step (hist_run ops).1 op,
       (hist_run ops).2 ++ [turn_of (hist_run ops).1 op]) := by
  unfold hist_run
  rw [List.foldl_append]
  rfl

theorem trim_after_append {s g : List Turn} {τ : Turn} {k n : Nat}
    (hst : s = rtakeL k g) (hsl : s.length = k) (hkn : k ≤ n)
    (hkey : k = n ∨ 40 ≤ k) :
    (if 40 < (s ++ [τ]).length then (s ++ [τ]).drop ((s ++ [τ]).length - 40)
     else s ++ [τ]) = rtakeL (min (n + 1) 40) (g ++ [τ]) := by
  have h1 : s ++ [τ] = rtakeL (k + 1) (g ++ [τ]) := by
    rw [hst]
    exact (rtakeL_concat k g τ).symm
  have hlen2 : (s ++ [τ]).length = k + 1 := by simp [hsl]
  by_cases h40 : 40 < (s ++ [τ]).length
  · rw [if_pos h40,
      (show (s ++ [τ]).drop ((s ++ [τ]).length - 40) = rtakeL 40 (s ++ [τ]) from rfl),
      h1, rtakeL_rtakeL]
    congr 1
    rw [hlen2] at h40
    omega
  · rw [if_neg h40, h1]
    congr 1
    rw [hlen2] at h40
    omega

theorem trim_before_append {s g : List Turn} {τ : Turn} {k n : Nat}
    (hst : s = rtakeL k g) (hsl : s.length = k) (hkn : k ≤ n) (hkb : k ≤ 41)
    (hkey : k = n ∨ 40 ≤ k) :
    (if 40 < s.length then s.drop (s.length - 40) else s) ++ [τ] =
      rtakeL (min (n + 1) 41) (g ++ [τ]) := by
  by_cases h40 : 40 < s.length
  · rw [if_pos h40, (show s.drop (s.length - 40) = rtakeL 40 s from rfl), hst,
      rtakeL_rtakeL]
    rw [hsl] at h40
    have hm : min 40 k = 40 := by omega
    rw [hm, ← rtakeL_concat]
    congr 1
    omega
  · rw [if_neg h40, hst, ← rtakeL_concat]
    congr 1
    rw [hsl] at h40
    omega

theorem hist_run_spec (ops : List HistOp) :
    (hist_run ops).2.length = ops.length ∧
    (hist_run ops).1 =
      rtakeL (min ops.length (op_bound ops.getLast?)) (hist_run ops).2 := by
  induction ops using List.reverseRecOn with
  | nil => exact ⟨rfl, rfl⟩
  | append_singleton ops op ih =>
    obtain ⟨hlen, hst⟩ := ih
    have hkn : min ops.length (op_bound ops.getLast?) ≤ ops.length := Nat.min_le_left _ _
    have hkb : min ops.length (op_bound ops.getLast?) ≤ 41 :=
      le_trans (Nat.min_le_right _ _) (op_bound_le _)
    have hsl : (hist_run ops).1.length = min ops.length (op_bound ops.getLast?) := by
      rw [hst, length_rtakeL, hlen]
      omega
    have hkey : min ops.length (op_bound ops.getLast?) = ops.length ∨
        40 ≤ min ops.length (op_bound ops.getLast?) := by
      rcases eq_or_ne ops [] with rfl | hne
      · left
        simp
      · have := op_bound_ge ops hne
        omega
    have hlen2 : (ops ++ [op]).length = ops.length + 1 := by simp
    rw [hist_run_concat, List.getLast?_concat]
    refine ⟨by simp [hlen], ?_⟩
    rw [hlen2]
    cases op with
    | ambient u t =>
      simp only [hist_step, add_message_to_history, turn_of, op_bound]
      exact trim_after_append hst hsl hkn hkey
    | reply llm u t extra =>
      simp only [hist_step, turn_of, op_bound]
      rw [(show (get_near_reply llm (hist_run ops).1 u t extra).2 =
        (if 40 < (hist_run ops).1.length then
          (hist_run ops).1.drop ((hist_run ops).1.length - 40)
        else (hist_run ops).1) ++
          [Turn.mk "assistant" (get_near_reply llm (hist_run ops).1 u t extra).1] from rfl)]
      exact trim_before_append hst hsl hkn hkb hkey

/-- Claim C2 (amended): the stored history can hold at most 41 turns (not 40):
`add_message_to_history` restores the 40 bound after appending, but
`get_near_reply` trims to 40 before appending its reply, so it can leave 41.
In all cases the retained turns are exactly the most recent appended turns in
their original order — the most recent `min(total, 40)` after an ambient
append and `min(total, 41)` after a reply. -/
theorem conversation_memory_bound (ops : List HistOp) :
    (hist_run ops).1 =
      rtakeL (min (hist_run ops).2.length (op_bound ops.getLast?)) (hist_run ops).2 ∧
    (hist_run ops).1.length ≤ 41 := by
  obtain ⟨hlen, hst⟩ := hist_run_spec ops
  rw [hlen]
  refine ⟨hst, ?_⟩
  rw [hst, length_rtakeL, hlen]
  have := op_bound_le ops.getLast?
  omega

/-! ## Claim C3 -/

theorem length_pyStrip_le (l : List Char) : (pyStrip l).length ≤ l.length := by
  unfold pyStrip
  rw [List.length_reverse]
  calc ((l.dropWhile pyIsSpace).reverse.dropWhile pyIsSpace).length
      ≤ (l.dropWhile pyIsSpace).reverse.length := (List.dropWhile_sublist _).length_le
    _ = (l.dropWhile pyIsSpace).length := List.length_reverse _
    _ ≤ l.length := (List.dropWhile_sublist _).length_le

theorem length_rstripNl_le (l : List Char) : (rstripNl l).length ≤ l.length := by
  unfold rstripNl
  rw [List.length_reverse]
  calc (l.reverse.dropWhile (· = '\n')).length
      ≤ l.reverse.length := (List.dropWhile_sublist _).length_le
    _ = l.length := List.length_reverse _

theorem length_rstripNl_lt (l : List Char) (h : l.getLast? = some '\n') :
    (rstripNl l).length + 1 ≤ l.length := by
  rw [← List.head?_reverse] at h
  cases hr : l.reverse with
  | nil =>
    rw [hr] at h
    cases h
  | cons c t =>
    rw [hr] at h
    injection h with h
    subst h
    unfold rstripNl
    rw [hr, List.dropWhile_cons]
    have h1 : (t.dropWhile (· = '\n')).length ≤ t.length := (List.dropWhile_sublist _).length_le
    have h2 : l.length = t.length + 1 := by
      rw [← List.length_reverse l, hr]
      simp
    simp only [decide_True, if_true, List.length_reverse]
    omega

theorem getLast?_append_last {α : Type} (l1 l2 : List α) (c : α) :
    (l1 ++ (l2 ++ [c])).getLast? = some c := by
  rw [← List.append_assoc]
  exact List.getLast?_concat _

theorem le_foldl_max_init (a : Nat) (xs : List Nat) : a ≤ xs.foldl max a := by
  induction xs generalizing a with
  | nil => exact Nat.le_refl a
  | cons x xs ih => exact Nat.le_trans (Nat.le_max_left a x) (ih (max a x))

theorem le_foldl_max_of_mem {x : Nat} :
    ∀ (xs : List Nat) (a : Nat), x ∈ xs → x ≤ xs.foldl max a
  | [], _, h => absurd h (List.not_mem_nil x)
  | y :: ys, a, h => by
    rcases List.mem_cons.mp h with rfl | h'
    · exact Nat.le_trans (Nat.le_max_right a x) (le_foldl_max_init (max a x) ys)
    · exact le_foldl_max_of_mem ys (max a y) h'

theorem line_le_max_line_len {text l : List Char} (h : l ∈ linesOf text) :
    l.length ≤ max_line_len text :=
  le_foldl_max_of_mem _ 0 (List.mem_map_of_mem List.length h)

/-- Length bound for an emitted part: the running chunk (bounded via
`chunk_inv`) with an optional closing fence appended, then trailing newlines
stripped. -/
theorem closed_part_bound {max_len M : Nat} {cur : List Char} (c : Prop) [Decidable c]
    (hcur : cur.length ≤ max_len ∨ cur.length ≤ 2 * M + 2) :
    (rstripNl (if c then cur ++ "```".toList ++ ['\n'] else cur)).length ≤ max_len + 3 ∨
      (rstripNl (if c then cur ++ "```".toList ++ ['\n'] else cur)).length ≤ 2 * M + 5 := by
  have h3 : ("```".toList).length = 3 := rfl
  by_cases hc : c
  · rw [if_pos hc]
    have hlt := length_rstripNl_lt (cur ++ "```".toList ++ ['\n']) (List.getLast?_concat _)
    have hlen : (cur ++ "```".toList ++ ['\n']).length = cur.length + 4 := by
      rw [List.length_append, List.length_append]
      simp [h3]
    rw [hlen] at hlt
    rcases hcur with h | h
    · left
      omega
    · right
      omega
  · rw [if_neg hc]
    have := length_rstripNl_le cur
    rcases hcur with h | h
    · left
      omega
    · right
      omega

theorem chunk_flush_fence (max_len : Nat) (st : ChunkState) (ll : Nat) :
    (chunk_flush max_len st ll).current_fence = st.current_fence := by
  unfold chunk_flush
  split <;> rfl

theorem chunk_flush_current (max_len M : Nat) (st : ChunkState) (ll : Nat)
    (hfence : st.current_fence.length ≤ M) :
    (chunk_flush max_len st ll).current.length + ll ≤ max_len ∨
      (chunk_flush max_len st ll).current.length ≤ M + 1 := by
  unfold chunk_flush
  by_cases hc : max_len < st.current.length + ll ∧ st.current ≠ []
  · rw [if_pos hc]
    right
    by_cases hr : st.in_code ∧ st.current_fence ≠ []
    · simp only [if_pos hr]
      show (st.current_fence ++ ['\n']).length ≤ M + 1
      simp only [List.length_append, List.length_singleton]
      omega
    · simp only [if_neg hr]
      show List.length [] ≤ M + 1
      simp
  · rw [if_neg hc]
    push_neg at hc
    rcases Nat.lt_or_ge max_len (st.current.length + ll) with hlt | hge
    · right
      rw [hc hlt]
      simp
    · left
      omega

theorem chunk_flush_inv {max_len M : Nat} {st : ChunkState} (ll : Nat)
    (h : chunk_inv max_len M st) : chunk_inv max_len M (chunk_flush max_len st ll) := by
  obtain ⟨hparts, hcur, hnl, hfence⟩ := h
  unfold chunk_flush
  by_cases hc : max_len < st.current.length + ll ∧ st.current ≠ []
  · rw [if_pos hc]
    refine ⟨?_, ?_, ?_, hfence⟩
    · intro p hp
      rcases List.mem_append.mp hp with hold | hnew
      · exact hparts p hold
      · rw [List.mem_singleton.mp hnew]
        exact closed_part_bound _ hcur
    · by_cases hr : st.in_code ∧ st.current_fence ≠ []
      · right
        simp only [if_pos hr]
        show (st.current_fence ++ ['\n']).length ≤ 2 * M + 2
        simp only [List.length_append, List.length_singleton]
        omega
      · left
        simp only [if_neg hr]
        show List.length [] ≤ max_len
        simp
    · by_cases hr : st.in_code ∧ st.current_fence ≠ []
      · right
        simp only [if_pos hr]
        exact List.getLast?_concat _
      · left
        simp only [if_neg hr]
  · rw [if_neg hc]
    exact ⟨hparts, hcur, hnl, hfence⟩

theorem chunk_toggle_parts_current (st : ChunkState) (line : List Char) :
    (chunk_toggle st line).parts = st.parts ∧ (chunk_toggle st line).current = st.current := by
  unfold chunk_toggle
  split
  · split <;> exact ⟨rfl, rfl⟩
  · exact ⟨rfl, rfl⟩

theorem chunk_toggle_fence_le {M : Nat} (st : ChunkState) (line : List Char)
    (h1 : line.length ≤ M) (h2 : st.current_fence.length ≤ M) :
    (chunk_toggle st line).current_fence.length ≤ M := by
  unfold chunk_toggle
  split
  · split
    · exact Nat.le_trans (length_pyStrip_le line) h1
    · exact Nat.zero_le M
  · exact h2

theorem chunk_step_inv {max_len M : Nat} {st : ChunkState} {line : List Char}
    (hline : line.length ≤ M) (h : chunk_inv max_len M st) :
    chunk_inv max_len M (chunk_step max_len st line) := by
  have h1 := chunk_flush_inv (line ++ ['\n']).length h
  have hflcur := chunk_flush_current max_len M st (line ++ ['\n']).length h.2.2.2
  obtain ⟨h1parts, h1cur, h1nl, h1fence⟩ := h1
  obtain ⟨htp, htc⟩ :=
    chunk_toggle_parts_current (chunk_flush max_len st (line ++ ['\n']).length) line
  refine ⟨?_, ?_, ?_, ?_⟩
  · show ∀ p ∈ (chunk_toggle (chunk_flush max_len st (line ++ ['\n']).length) line).parts,
      p.length ≤ max_len + 3 ∨ p.length ≤ 2 * M + 5
    rw [htp]
    exact h1parts
  · show ((chunk_toggle (chunk_flush max_len st (line ++ ['\n']).length) line).current ++
        (line ++ ['\n'])).length ≤ max_len ∨
      ((chunk_toggle (chunk_flush max_len st (line ++ ['\n']).length) line).current ++
        (line ++ ['\n'])).length ≤ 2 * M + 2
    rw [htc]
    simp only [List.length_append, List.length_singleton]
    rcases hflcur with ha | hb
    · left
      simp only [List.length_append, List.length_singleton] at ha
      omega
    · right
      simp only [List.length_append, List.length_singleton] at hb
      omega
  · right
    exact getLast?_append_last _ _ _
  · show (chunk_toggle (chunk_flush max_len st (line ++ ['\n']).length) line).current_fence.length ≤ M
    exact chunk_toggle_fence_le _ line hline h1fence

theorem foldl_chunk_inv (max_len M : Nat) (lines : List (List Char))
    (hlines : ∀ l ∈ lines, l.length ≤ M) :
    ∀ st : ChunkState, chunk_inv max_len M st →
      chunk_inv max_len M (lines.foldl (chunk_step max_len) st) := by
  induction lines with
  | nil => exact fun st h => h
  | cons l ls ih =>
    intro st h
    rw [List.foldl_cons]
    exact ih (fun x hx => hlines x (List.mem_cons_of_mem _ hx)) _
      (chunk_step_inv (hlines l (List.mem_cons_self _ _)) h)

/-- Claim C3 (amended): every segment has length at most `max_len + 3` (the
closing fence appended at a split can push a segment up to 3 characters past
the limit), or — for a segment holding a single oversized line together with
its re-opened fence marker and appended closing fence, the line left
unsplit — at most twice the longest input line's length plus 5. -/
theorem split_into_messages_length_bound (text : List Char) (max_len : Nat)
    (p : List Char) (hp : p ∈ split_into_messages text max_len) :
    p.length ≤ max_len + 3 ∨ p.length ≤ 2 * max_line_len text + 5 := by
  have hinv := foldl_chunk_inv max_len (max_line_len text) (linesOf text)
    (fun l hl => line_le_max_line_len hl) ⟨[], [], false, []⟩
    ⟨fun p hp => absurd hp (List.not_mem_nil p), Or.inl (Nat.zero_le _), Or.inl rfl,
      Nat.zero_le _⟩
  obtain ⟨hparts, hcur, hnl, hfence⟩ := hinv
  simp only [split_into_messages] at hp
  by_cases hend :
    pyStrip ((linesOf text).foldl (chunk_step max_len) ⟨[], [], false, []⟩).current ≠ []
  · rw [if_pos hend] at hp
    rcases List.mem_append.mp hp with hold | hnew
    · exact hparts p hold
    · rw [List.mem_singleton.mp hnew]
      exact closed_part_bound _ hcur
  · rw [if_neg hend] at hp
    exact hparts p hp

/-- Witness for `split_into_messages_length_bound` at a concrete input. -/
theorem split_into_messages_length_bound_witness :
    ("```\nabcd\n```".toList.length ≤ 10 + 3 ∨
      "```\nabcd\n```".toList.length ≤ 2 * max_line_len "```\nabcd\nxy".toList + 5) :=
  split_into_messages_length_bound "```\nabcd\nxy".toList 10 "```\nabcd\n```".toList
    (by decide)

/-! ## Claim C4 -/

theorem ensureNl_cons (c : Char) (cs : List Char) (h : cs ≠ []) :
    ensureNl (c :: cs) = c :: ensureNl cs := by
  obtain ⟨d, t, rfl⟩ : ∃ d t, cs = d :: t := by
    cases cs
    · exact absurd rfl h
    · exact ⟨_, _, rfl⟩
  unfold ensureNl
  rw [List.getLast?_cons_cons]
  split
  · rfl
  · rfl

theorem joinNl_linesAux :
    ∀ (s acc : List Char),
      joinNl (linesAux s acc) =
        if acc = [] ∧ s = [] then [] else acc.reverse ++ ensureNl s := by
  intro s
  induction s with
  | nil =>
    intro acc
    by_cases h : acc = []
    · subst h
      simp [linesAux, joinNl]
    · simp [linesAux, joinNl, h, ensureNl]
  | cons c cs ih =>
    intro acc
    by_cases hc : c = '\n'
    · subst hc
      simp only [linesAux, if_pos rfl, joinNl, ih []]
      by_cases hcs : cs = []
      · subst hcs
        simp [ensureNl]
      · rw [if_neg (by simpa using hcs), ensureNl_cons '\n' cs hcs]
        simp
    · simp only [linesAux, if_neg hc, ih (c :: acc)]
      rw [if_neg (by simp)]
      by_cases hcs : cs = []
      · subst hcs
        rw [if_neg (by simp)]
        simp [ensureNl, hc]
      · rw [if_neg (by simp), ensureNl_cons c cs hcs]
        simp

theorem joinNl_linesOf (s : List Char) (h : s ≠ []) : joinNl (linesOf s) = ensureNl s := by
  unfold linesOf
  rw [joinNl_linesAux]
  simp [h]

theorem lines_total_eq (ls : List (List Char)) : lines_total ls = (joinNl ls).length := by
  induction ls with
  | nil => rfl
  | cons l t ih =>
    simp only [lines_total, List.map_cons, List.sum_cons, joinNl, List.length_append,
      List.length_cons]
    simp only [lines_total] at ih
    omega

theorem length_ensureNl_le (s : List Char) : (ensureNl s).length ≤ s.length + 1 := by
  unfold ensureNl
  split
  · omega
  · simp

theorem all_dropWhile_iff (p : Char → Bool) (l : List Char) :
    (∀ x ∈ l.dropWhile p, p x = true) ↔ ∀ x ∈ l, p x = true := by
  induction l with
  | nil => simp
  | cons c t ih =>
    rw [List.dropWhile_cons]
    by_cases hpc : p c = true
    · rw [if_pos hpc]
      constructor
      · intro h x hx
        rcases List.mem_cons.mp hx with rfl | hx'
        · exact hpc
        · exact ih.mp h x hx'
      · intro h x hx
        exact ih.mpr (fun y hy => h y (List.mem_cons_of_mem _ hy)) x hx
    · rw [if_neg hpc]

theorem pyStrip_eq_nil_iff (l : List Char) :
    pyStrip l = [] ↔ ∀ c ∈ l, pyIsSpace c = true := by
  unfold pyStrip
  rw [List.reverse_eq_nil_iff, List.dropWhile_eq_nil_iff]
  constructor
  · intro h c hc
    have hall : ∀ x ∈ l.dropWhile pyIsSpace, pyIsSpace x = true :=
      fun x hx => h x (List.mem_reverse.mpr hx)
    exact (all_dropWhile_iff pyIsSpace l).mp hall c hc
  · intro h c hc
    exact h c ((List.dropWhile_sublist pyIsSpace).mem (List.mem_reverse.mp hc))

theorem rstripNl_ensureNl (s : List Char) : rstripNl (ensureNl s) = rstripNl s := by
  unfold ensureNl
  split
  · rfl
  · unfold rstripNl
    rw [List.reverse_append]
    simp only [List.reverse_cons, List.reverse_nil, List.nil_append, List.singleton_append]
    rw [List.dropWhile_cons]
    simp

theorem chunk_flush_noop (max_len : Nat) (st : ChunkState) (ll : Nat)
    (h : ¬ (max_len < st.current.length + ll ∧ st.current ≠ [])) :
    chunk_flush max_len st ll = st := by
  unfold chunk_flush
  rw [if_neg h]

theorem fence_step_toggle (st : ChunkState) (l : List Char) :
    fence_step (st.in_code, st.current_fence) l =
      ((chunk_toggle st l).in_code, (chunk_toggle st l).current_fence) := by
  unfold fence_step chunk_toggle
  cases hfb : "```".toList.isPrefixOf (pyStrip l) <;> cases hicb : st.in_code <;>
    (simp [hfb, hicb, ← List.isPrefixOf_iff_prefix]; try exact hfb)

theorem chunk_toggle_fence_state (st : ChunkState) (l : List Char) (t : List (List Char)) :
    fence_state (st.in_code, st.current_fence) (l :: t) =
      fence_state ((chunk_toggle st l).in_code, (chunk_toggle st l).current_fence) t := by
  unfold fence_state
  rw [List.foldl_cons, fence_step_toggle]

theorem foldl_chunk_no_flush (max_len : Nat) :
    ∀ (ls : List (List Char)) (st : ChunkState),
      st.current.length + lines_total ls ≤ max_len →
      (ls.foldl (chunk_step max_len) st).parts = st.parts ∧
      (ls.foldl (chunk_step max_len) st).current = st.current ++ joinNl ls ∧
      ((ls.foldl (chunk_step max_len) st).in_code,
        (ls.foldl (chunk_step max_len) st).current_fence) =
        fence_state (st.in_code, st.current_fence) ls := by
  intro ls
  induction ls with
  | nil =>
    intro st h
    exact ⟨rfl, by simp [joinNl], rfl⟩
  | cons l t ih =>
    intro st h
    have htot : lines_total (l :: t) = (l.length + 1) + lines_total t := by
      simp [lines_total]
    have hnof : chunk_flush max_len st (l ++ ['\n']).length = st :=
      chunk_flush_noop _ _ _ (by
        simp only [List.length_append, List.length_singleton]
        intro hcontra
        omega)
    have hstep : chunk_step max_len st l =
        { chunk_toggle st l with current := (chunk_toggle st l).current ++ (l ++ ['\n']) } := by
      simp only [chunk_step, hnof]
    obtain ⟨htp, htc⟩ := chunk_toggle_parts_current st l
    rw [List.foldl_cons, hstep]
    obtain ⟨ihp, ihc, ihf⟩ := ih
      { chunk_toggle st l with current := (chunk_toggle st l).current ++ (l ++ ['\n']) }
      (by
        show ((chunk_toggle st l).current ++ (l ++ ['\n'])).length + lines_total t ≤ max_len
        rw [htc]
        simp only [List.length_append, List.length_singleton]
        omega)
    refine ⟨?_, ?_, ?_⟩
    · rw [ihp]
      show (chunk_toggle st l).parts = st.parts
      exact htp
    · rw [ihc]
      show (chunk_toggle st l).current ++ (l ++ ['\n']) ++ joinNl t = st.current ++ joinNl (l :: t)
      rw [htc]
      simp [joinNl, List.append_assoc]
    · rw [ihf]
      show fence_state ((chunk_toggle st l).in_code, (chunk_toggle st l).current_fence) t =
        fence_state (st.in_code, st.current_fence) (l :: t)
      exact (chunk_toggle_fence_state st l t).symm

/-- Claim C4 (amended): for every input strictly under the length limit that
contains a non-whitespace character and whose line-by-line fence scan ends
outside a code fence, `split_into_messages` returns exactly one segment: the
input with its trailing newlines removed (not otherwise trimmed). -/
theorem split_into_messages_single (text : List Char) (max_len : Nat)
    (hlen : text.length < max_len)
    (hws : ¬ ∀ c ∈ text, pyIsSpace c = true)
    (hbal : (fence_state (false, []) (linesOf text)).1 = false) :
    split_into_messages text max_len = [rstripNl text] := by
  have hne : text ≠ [] := by
    rintro rfl
    exact hws (fun c hc => absurd hc (List.not_mem_nil c))
  have hjoin : joinNl (linesOf text) = ensureNl text := joinNl_linesOf text hne
  have htot : lines_total (linesOf text) ≤ max_len := by
    rw [lines_total_eq, hjoin]
    have := length_ensureNl_le text
    omega
  obtain ⟨hp, hc, hf⟩ := foldl_chunk_no_flush max_len (linesOf text) ⟨[], [], false, []⟩
    (by simpa using htot)
  have hcur : ((linesOf text).foldl (chunk_step max_len) ⟨[], [], false, []⟩).current =
      ensureNl text := by
    rw [hc]
    simpa using hjoin
  have hic : ((linesOf text).foldl (chunk_step max_len) ⟨[], [], false, []⟩).in_code = false := by
    have := congrArg Prod.fst hf
    simpa using this.trans hbal
  have hstr : pyStrip ((linesOf text).foldl (chunk_step max_len)
      ⟨[], [], false, []⟩).current ≠ [] := by
    rw [hcur, Ne, pyStrip_eq_nil_iff]
    intro hall
    refine hws (fun c hcm => hall c ?_)
    unfold ensureNl
    split
    · exact hcm
    · exact List.mem_append_left _ hcm
  simp only [split_into_messages]
  rw [if_pos hstr, hp, hic, hcur]
  simp [rstripNl_ensureNl]

/-- Witness for `split_into_messages_single` at a concrete input. -/
theorem split_into_messages_single_witness :
    split_into_messages "hello\nworld".toList 1900 = [rstripNl "hello\nworld".toList] :=
  split_into_messages_single "hello\nworld".toList 1900 (by decide) (by decide) (by decide)

end NearBot
